import Mathlib

/-!
# Verification of the fuzzpy core against its specification

Shallow embedding of the `fuzz` package (files `fuzz/iset.py`, `fuzz/fset.py`,
`fuzz/fnumber.py`, `fuzz/graph.py`, `fuzz/fgraph.py`).  Membership degrees
(Python floats) are modelled as rationals `ℚ`; Python exceptions are modelled
with an explicit error type and `Except`.  Containers (Python `set` of
`IndexedMember`s, keyed by the immutable index) are modelled as association
lists with unique keys; `set.add` of an element whose key is already present
is a no-op in Python, which is what `fsAdd` encodes.
-/

/- Batteries marks the rational-number arithmetic `@[irreducible]`, which
prevents `decide` from evaluating the executable embedding on concrete
inputs; restore the definitional behaviour (the kernel unfolds these
definitions regardless, so proofs are unaffected). -/
set_option allowUnsafeReducibility true
attribute [semireducible] Rat.add Rat.mul Rat.sub Rat.div Rat.inv Rat.neg

/-- The Python exceptions reachable in the embedded code paths. -/
inductive PyErr where
  | valueError
  | typeError
  | keyError
  | indexError
  | zeroDivisionError
  deriving Repr, DecidableEq

deriving instance DecidableEq for Except

section FuzzySetModel

variable {K : Type} [DecidableEq K]

/-- A `FuzzySet` (fuzz/fset.py) as an association list of
(index, membership degree) pairs; the Python object is an unordered `set`
keyed by the element index, so lists with the same key→mu map represent the
same Python value. -/
abbrev FSet (K : Type) := List (K × ℚ)

/-- `FuzzyElement.__init__` (fuzz/fset.py lines 22-32): stores the index and
the membership degree.  There is no validation of `mu` in the source. -/
def fuzzyElementInit (index : K) (mu : ℚ) : K × ℚ := (index, mu)

/-- The keys of the container, including zero-membership elements
(`FuzzySet.keys`, fuzz/fset.py lines 177-185). -/
def fsKeys (A : FSet K) : List K := A.map Prod.fst

/-- `FuzzySet.__getitem__` (fuzz/fset.py lines 114-127): first element whose
index equals the key, as an `Option` (Python raises `KeyError` on `none`). -/
def fsLookup (A : FSet K) (k : K) : Option ℚ :=
  (A.find? (fun e => e.1 = k)).map Prod.snd

/-- `FuzzySet.mu` (fuzz/fset.py lines 187-198): membership of the key, `0.0`
for any non-member. -/
def fsMu (A : FSet K) (k : K) : ℚ := (fsLookup A k).getD 0

/-- Iteration over a `FuzzySet` (`FuzzySetIterator`, fuzz/fset.py lines 62-76)
yields only the elements with `mu > 0`. -/
def fsActive (A : FSet K) : FSet K := A.filter (fun e => 0 < e.2)

/-- `FuzzySet.__len__` (fuzz/fset.py lines 96-103): the number of elements
with positive membership. -/
def fsLen (A : FSet K) : Nat := (fsActive A).length

/-- `IndexedSet.add` (fuzz/iset.py lines 139-149): `set.add(self, copy(item))`
on a Python set keyed by the index is a no-op when the key is already
present, otherwise it inserts an owned copy of the element. -/
def fsAdd (A : FSet K) (e : K × ℚ) : FSet K :=
  if e.1 ∈ fsKeys A then A else A ++ [e]

/-- `IndexedSet.update` / `FuzzySet.update` (fuzz/iset.py lines 151-157):
`add` every element of the iterable. -/
def fsUpdate (A : FSet K) (l : List (K × ℚ)) : FSet K := l.foldl fsAdd A

/-- `result.update([FuzzyElement(key, f key) for key in ks])` over an empty
`result`, the construction pattern shared by `union`, `intersection` and
`complement` in fuzz/fset.py. -/
def fsBuild (ks : List K) (f : K → ℚ) : FSet K :=
  fsUpdate [] (ks.map (fun k => (k, f k)))

/-- `FuzzySet.__init__(iterable)` (fuzz/fset.py lines 78-85 via
`IndexedSet.__init__`): `add` every element produced by iterating the
argument; iterating a `FuzzySet` yields only its active elements. -/
def fsCopyOf (A : FSet K) : FSet K := fsUpdate [] (fsActive A)

/-- In-place mutation `result[key].mu = v` (through
`FuzzySet.__getitem__`) used by `efficient_union`. -/
def fsSetMu (A : FSet K) (k : K) (v : ℚ) : FSet K :=
  A.map (fun e => if e.1 = k then (k, v) else e)

/-- `set(self.keys()) | set(other.keys())` in `FuzzySet.union`
(fuzz/fset.py line 285); a Python set has no canonical order, we fix one. -/
def fsBothKeys (A B : FSet K) : List K := (fsKeys A ++ fsKeys B).dedup

/-- The four t-conorms of `FuzzySet.union` (fuzz/fset.py lines 286-294).
The `NORM_DRASTIC` entry reproduces the Python truthiness chain
`(a == 0.0 and b) or (b == 0.0 and a) or 1.0`: a conjunct `x and y`
yields `y` when `x` is true and a falsy value otherwise, and `p or q`
yields `p` unless `p` is falsy (`False` or `0.0`). -/
def tconorm (norm : Nat) (a b : ℚ) : ℚ :=
  match norm with
  | 0 => max a b
  | 1 => a + b - a * b
  | 2 => min 1 (a + b)
  | _ => if a = 0 ∧ b ≠ 0 then b else if b = 0 ∧ a ≠ 0 then a else 1

/-- The four t-norms of `FuzzySet.intersection` (fuzz/fset.py lines 362-370).
`NORM_DRASTIC` reproduces `(a == 1.0 and b) or (b == 1.0 and a) or 0.0`
under Python truthiness. -/
def tnorm (norm : Nat) (a b : ℚ) : ℚ :=
  match norm with
  | 0 => min a b
  | 1 => a * b
  | 2 => max 0 (a + b - 1)
  | _ => if a = 1 ∧ b ≠ 0 then b else if b = 1 ∧ a ≠ 0 then a else 0

/-- `FuzzySet.union(other, norm)` (fuzz/fset.py lines 264-296): build a fresh
set over the union of both key lists, each key getting the t-conorm of the
two membership degrees (a missing key reads as `mu = 0`). -/
def fsUnion (A B : FSet K) (norm : Nat) : FSet K :=
  fsBuild (fsBothKeys A B) (fun k => tconorm norm (fsMu A k) (fsMu B k))

/-- `FuzzySet.intersection(other, norm)` (fuzz/fset.py lines 341-372): build a
fresh set over `self`'s keys only. -/
def fsIntersection (A B : FSet K) (norm : Nat) : FSet K :=
  fsBuild (fsKeys A) (fun k => tnorm norm (fsMu A k) (fsMu B k))

/-- `FuzzySet.complement` (fuzz/fset.py lines 499-509): fresh set over
`self`'s keys with `1 - mu`. -/
def fsComplement (A : FSet K) : FSet K :=
  fsBuild (fsKeys A) (fun k => 1 - fsMu A k)

/-- The loop body of `FuzzySet.efficient_union` (fuzz/fset.py lines 310-315):
`ks` is the key list of the copy, recorded once before the loop; a key
already present gets its membership raised to the max in place, a new key is
inserted with `set.add` (the key is known to be absent, so this appends). -/
def euStep (ks : List K) (r : FSet K) (e : K × ℚ) : FSet K :=
  if e.1 ∈ ks then fsSetMu r e.1 (max (fsMu r e.1) e.2) else r ++ [e]

/-- `FuzzySet.efficient_union` (fuzz/fset.py lines 298-316): copy `self`
(dropping inactive elements, since construction iterates the fuzzy set),
record the copy's keys once, then for each active element of `other` either
raise the copy's membership to the max or append a fresh copy. -/
def fsEfficientUnion (A B : FSet K) : FSet K :=
  (fsActive B).foldl (euStep (fsKeys (fsCopyOf A))) (fsCopyOf A)

/-- `FuzzySet.__eq__` (fuzz/fset.py lines 374-395): equal lengths (active
elements only) and, for every active element of `self`, a same-key element in
`other` whose membership differs by at most `1e-10`. -/
def fsEq (A B : FSet K) : Bool :=
  fsLen A == fsLen B &&
    (fsActive A).all (fun e =>
      match fsLookup B e.1 with
      | none => false
      | some m => decide (|e.2 - m| ≤ 1 / 10 ^ 10))

/-- `FuzzySet.height` (fuzz/fset.py lines 220-228): `max` of the memberships
of the active elements; Python's `max` raises `ValueError` on an empty
sequence. -/
def fsHeight (A : FSet K) : Except PyErr ℚ :=
  match fsActive A with
  | [] => .error .valueError
  | e :: es => .ok ((es.map Prod.snd).foldl max e.2)

/-- `FuzzySet.normalize` (fuzz/fset.py lines 558-566): if `self.height > 0`,
scale every iterated (hence active) element by `1/height`.  Evaluating
`self.height` on a set with no active element raises `ValueError`. -/
def fsNormalize (A : FSet K) : Except PyErr (FSet K) :=
  match fsHeight A with
  | .error e => .error e
  | .ok h =>
      if 0 < h then
        .ok (A.map (fun e => if 0 < e.2 then (e.1, e.2 * (1 / h)) else e))
      else .ok A

/-- Unique-keys invariant of an `IndexedSet`: a Python set keyed by the index
holds at most one element per key. -/
def UKeys (A : FSet K) : Prop := (fsKeys A).Nodup

instance (A : FSet K) : Decidable (UKeys A) := by
  unfold UKeys
  infer_instance

/-- The membership the iteration of a fuzzy set exposes at a key: the stored
value when positive, nothing otherwise. -/
def fsALk (A : FSet K) (k : K) : Option ℚ :=
  (fsLookup A k).bind (fun v => if 0 < v then some v else none)

/-- All membership degrees stored in the set are nonnegative (true of any
fuzzy set whose degrees lie in `[0,1]`). -/
def fsNonneg (A : FSet K) : Prop := ∀ e ∈ A, 0 ≤ e.2

instance (A : FSet K) : Decidable (fsNonneg A) := by
  unfold fsNonneg
  exact List.decidableBAll _ A

end FuzzySetModel

section PolygonModel

/-- `PolygonalFuzzyNumber.support` (fnumber.py lines 354-371): scan the
points from index 1 on; open a range (remembering the previous point's x)
when `mu` becomes positive, close it when `mu` returns to zero.  The state
is the x-coordinate of the recorded start point, the recursion walks
(previous point, current point) pairs. -/
def pfnSupportAux : Option ℚ → ℚ × ℚ → List (ℚ × ℚ) → List (ℚ × ℚ)
  | _, _, [] => []
  | none, prev, cur :: rest =>
      if 0 < cur.2 then pfnSupportAux (some prev.1) cur rest
      else pfnSupportAux none cur rest
  | some s, _, cur :: rest =>
      if cur.2 = 0 then (s, cur.1) :: pfnSupportAux none cur rest
      else pfnSupportAux (some s) cur rest

/-- `PolygonalFuzzyNumber.support`: the list of maximal ranges on which the
membership is nonzero. -/
def pfnSupport : List (ℚ × ℚ) → List (ℚ × ℚ)
  | [] => []
  | p :: rest => pfnSupportAux none p rest

/-- Inner loop of `PolygonalFuzzyNumber.mu` (fnumber.py lines 328-333):
find the first point with x-coordinate strictly greater than `value` and
interpolate linearly from its predecessor; fall through to `0.0`. -/
def pfnMuLoop : ℚ × ℚ → List (ℚ × ℚ) → ℚ → ℚ
  | _, [], _ => 0
  | prev, cur :: rest, x =>
      if x < cur.1 then
        ((x - prev.1) / (cur.1 - prev.1)) * (cur.2 - prev.2) + prev.2
      else pfnMuLoop cur rest x

/-- `PolygonalFuzzyNumber.mu` (fnumber.py lines 318-333): `0.0` when `value`
lies in no support subrange (ranges are inclusive on both ends), otherwise
linear interpolation between the two bounding vertices. -/
def pfnMu (pts : List (ℚ × ℚ)) (x : ℚ) : ℚ :=
  if (pfnSupport pts).any (fun r => decide (r.1 ≤ x) && decide (x ≤ r.2)) then
    match pts with
    | [] => 0
    | p :: rest => pfnMuLoop p rest x
  else 0

/-- `PolygonalFuzzyNumber.height` (fnumber.py lines 373-381): maximum
membership over the vertices (polygons always have at least one point, so
Python's `max` never sees an empty sequence). -/
def pfnHeight : List (ℚ × ℚ) → ℚ
  | [] => 0
  | p :: rest => (rest.map Prod.snd).foldl max p.2

/-- `PolygonalFuzzyNumber.normalize` (fnumber.py lines 527-532): rescale
every vertex's membership by `1.0 / self.height`; at height zero the
division raises `ZeroDivisionError`. -/
def pfnNormalize (pts : List (ℚ × ℚ)) : Except PyErr (List (ℚ × ℚ)) :=
  if pts = [] then .ok []
  else if pfnHeight pts = 0 then .error .zeroDivisionError
  else .ok (pts.map (fun p => (p.1, p.2 * (1 / pfnHeight pts))))

/-- Adjacent x-coordinates are non-decreasing (the loop of the constructor,
fnumber.py lines 290-292). -/
def pfnXNonDecr : List (ℚ × ℚ) → Bool
  | a :: b :: rest => decide (a.1 ≤ b.1) && pfnXNonDecr (b :: rest)
  | _ => true

/-- `PolygonalFuzzyNumber.__init__` (fnumber.py lines 281-294): the first and
last points must have `mu = 0` and the x-coordinates must be non-decreasing,
otherwise `ValueError`; an empty list raises `IndexError` at `points[0]`. -/
def polygonalFuzzyNumberInit (pts : List (ℚ × ℚ)) :
    Except PyErr (List (ℚ × ℚ)) :=
  match pts with
  | [] => .error .indexError
  | p :: _ =>
      if ¬ (p.2 = 0 ∧ (pts.getLast?.getD p).2 = 0) then .error .valueError
      else if pfnXNonDecr pts then .ok pts else .error .valueError

/-- `PolygonalFuzzyNumber.to_fuzzy_set` (fnumber.py lines 543-559).  The
body runs `F.add(point, self.mu(point))`, passing two positional arguments
to `FuzzySet.add(self, element)` (fuzz/fset.py line 139), which accepts only
one — Python raises `TypeError` on the first iteration, before any element
is added.  With an empty sample list the loop never runs and the empty
fuzzy set is returned; with `samplepoints=None` the polygon's own (nonempty)
vertex list is used. -/
def pfnToFuzzySet (pts : List (ℚ × ℚ)) (samplepoints : Option (List ℚ)) :
    Except PyErr (FSet ℚ) :=
  match samplepoints.getD (pts.map Prod.fst) with
  | [] => .ok []
  | _ :: _ => .error .typeError

/-- `PolygonalFuzzyNumber._line_intersection` (fnumber.py lines 383-399):
parametric intersection of the lines through `p, q` and `r, s`; `None` when
the denominator vanishes (`ZeroDivisionError` caught). -/
def lineIntersection (p q r s : ℚ × ℚ) : Option (ℚ × ℚ) :=
  let den := (s.2 - r.2) * (q.1 - p.1) - (s.1 - r.1) * (q.2 - p.2)
  if den = 0 then none
  else
    let ua := ((s.1 - r.1) * (p.2 - r.2) - (s.2 - r.2) * (p.1 - r.1)) / den
    some (p.1 + ua * (q.1 - p.1), p.2 + ua * (q.2 - p.2))

/-- A vertex of the merged list in `union`/`intersection`: the point plus
its provenance `[point, i, polygon]` — `some (fromSelf, originalIndex)` for
an original vertex, `none` for an intersection point inserted later. -/
abbrev PTag := (ℚ × ℚ) × Option (Bool × ℕ)

/-- Tag every vertex with its source polygon and original index
(`[[point, i, self] for i, point in enumerate(self.points)]`). -/
def tagPoints (fromSelf : Bool) (pts : List (ℚ × ℚ)) : List PTag :=
  pts.enum.map (fun ip => (ip.2, some (fromSelf, ip.1)))

/-- The comparison `points.sort()` applies to the `[point, i, polygon]`
triples: lexicographic on `(x, mu)`, then on the original index; when even
those tie, Python 2 falls back to comparing the polygon objects, whose
order is arbitrary but fixed — the embedding puts `self` first. -/
def tagLE (a b : PTag) : Bool :=
  if a.1.1 < b.1.1 then true
  else if b.1.1 < a.1.1 then false
  else if a.1.2 < b.1.2 then true
  else if b.1.2 < a.1.2 then false
  else
    match a.2, b.2 with
    | some (sa, ia), some (sb, ib) =>
        if ia < ib then true
        else if ib < ia then false
        else sa || !sb
    | _, _ => true

/-- Stable insertion used by the merge sort of the vertex lists. -/
def insSorted {α : Type} (le : α → α → Bool) : α → List α → List α
  | x, [] => [x]
  | x, y :: ys => if le x y then x :: y :: ys else y :: insSorted le x ys

/-- Stable sort (`points.sort()`). -/
def sortBy {α : Type} (le : α → α → Bool) (l : List α) : List α :=
  l.foldr (insSorted le) []

/-- Duplicate-x elimination of `union` (fnumber.py lines 417-428): the
`while` loop repeatedly compares adjacent vertices with the same
x-coordinate and deletes the one with the smaller mu (on a tie, the
second), which amounts to keeping a running winner per x-run. -/
def dedupMaxGo : PTag → List PTag → List PTag
  | best, [] => [best]
  | best, b :: rest =>
      if best.1.1 = b.1.1 then
        dedupMaxGo (if best.1.2 < b.1.2 then b else best) rest
      else best :: dedupMaxGo b rest

/-- Duplicate-x elimination for `union`. -/
def dedupMax : List PTag → List PTag
  | [] => []
  | a :: rest => dedupMaxGo a rest

/-- Duplicate-x elimination of `intersection` (fnumber.py lines 479-491):
the vertex with the larger mu is deleted (on a tie, the second). -/
def dedupMinGo : PTag → List PTag → List PTag
  | best, [] => [best]
  | best, b :: rest =>
      if best.1.1 = b.1.1 then
        dedupMinGo (if best.1.2 > b.1.2 then b else best) rest
      else best :: dedupMinGo b rest

/-- Duplicate-x elimination for `intersection`. -/
def dedupMin : List PTag → List PTag
  | [] => []
  | a :: rest => dedupMinGo a rest

/-- The intersection-point insertion loop shared by `union` and
`intersection` (fnumber.py lines 429-443 and 492-506).  For each adjacent
pair from different source polygons, intersect the segment leaving the
first vertex within its polygon with the segment entering the second vertex
within its polygon, and insert the intersection point (tagged `none`) when
it lies strictly between the two x-coordinates with positive mu; the index
then skips past the inserted point.  Accessing the successor of a polygon's
last vertex raises `IndexError`, which the `try` block turns into a `break`
that abandons the rest of the loop; Python's `points[-1]` makes the
predecessor of a polygon's first vertex its last vertex. -/
def insLoop (selfPts otherPts : List (ℚ × ℚ)) : List PTag → List PTag
  | a :: b :: rest =>
      match a.2, b.2 with
      | some (sa, ia), some (sb, ib) =>
          if sa == sb then a :: insLoop selfPts otherPts (b :: rest)
          else
            let pa := if sa then selfPts else otherPts
            let pb := if sb then selfPts else otherPts
            match pa.get? (ia + 1) with
            | none => a :: b :: rest
            | some qa =>
                match (if ib = 0 then pb.get? (pb.length - 1)
                       else pb.get? (ib - 1)) with
                | none => a :: b :: rest
                | some rb =>
                    match lineIntersection a.1 qa b.1 rb with
                    | none => a :: insLoop selfPts otherPts (b :: rest)
                    | some ipt =>
                        if 0 < ipt.2 ∧ a.1.1 < ipt.1 ∧ ipt.1 < b.1.1 then
                          a :: (ipt, none) ::
                            insLoop selfPts otherPts (b :: rest)
                        else a :: insLoop selfPts otherPts (b :: rest)
      | _, _ => a :: insLoop selfPts otherPts (b :: rest)
  | l => l

/-- Step 4 of the merge (fnumber.py lines 444-446 / 507-509): re-evaluate
every vertex's mu as the combination of both inputs' `mu` at that x. -/
def recomputeWith (f : ℚ → ℚ → ℚ) (selfPts otherPts : List (ℚ × ℚ))
    (l : List PTag) : List (ℚ × ℚ) :=
  l.map (fun t => (t.1.1, f (pfnMu selfPts t.1.1) (pfnMu otherPts t.1.1)))

/-- `while points[1][0][1] == 0.0: del points[0]` (fnumber.py lines 448-449 /
511-512): drop leading vertices while the second one has `mu = 0`; on a
list that shrinks below two elements the subscript `points[1]` raises
`IndexError` (uncaught). -/
def trimLead : List (ℚ × ℚ) → Except PyErr (List (ℚ × ℚ))
  | p :: q :: rest =>
      if q.2 = 0 then trimLead (q :: rest) else .ok (p :: q :: rest)
  | _ => .error .indexError

/-- `while points[-2][0][1] == 0.0: del points[-1]` on the reversed list. -/
def trimTrailRev : List (ℚ × ℚ) → Except PyErr (List (ℚ × ℚ))
  | last :: p2 :: rest =>
      if p2.2 = 0 then trimTrailRev (p2 :: rest) else .ok (last :: p2 :: rest)
  | _ => .error .indexError

/-- The trailing-zero trim (fnumber.py lines 450-451 / 513-514). -/
def trimTrail (pts : List (ℚ × ℚ)) : Except PyErr (List (ℚ × ℚ)) :=
  (trimTrailRev pts.reverse).map List.reverse

/-- The flat-run removal (fnumber.py lines 452-461 / 515-524): delete a
middle vertex whenever it and both neighbours share the same mu; after a
deletion the same predecessor is compared with the next pair. -/
def collinearGo (prev : ℚ × ℚ) : List (ℚ × ℚ) → List (ℚ × ℚ)
  | a :: b :: rest =>
      if a.2 = prev.2 ∧ a.2 = b.2 then collinearGo prev (b :: rest)
      else a :: collinearGo a (b :: rest)
  | l => l

/-- Entry point of the flat-run removal, starting at index 1. -/
def collinearRemove : List (ℚ × ℚ) → List (ℚ × ℚ)
  | [] => []
  | p :: rest => p :: collinearGo p rest

/-- `PolygonalFuzzyNumber.union` / `.intersection` (fnumber.py lines 401-462
and 464-525): merge and sort the tagged vertices, collapse duplicate
x-coordinates (max mu for union, min for intersection), insert segment
intersection points, re-evaluate every mu as max/min of the two inputs,
trim the zero runs at both ends, drop flat middle vertices, and build the
result polygon. -/
def pfnMergeOp (isUnion : Bool) (selfPts otherPts : List (ℚ × ℚ)) :
    Except PyErr (List (ℚ × ℚ)) :=
  let merged := sortBy tagLE (tagPoints true selfPts ++ tagPoints false otherPts)
  let dd := if isUnion then dedupMax merged else dedupMin merged
  let wi := insLoop selfPts otherPts dd
  let rc := recomputeWith (if isUnion then max else min) selfPts otherPts wi
  match trimLead rc with
  | .error e => .error e
  | .ok t1 =>
      match trimTrail t1 with
      | .error e => .error e
      | .ok t2 => polygonalFuzzyNumberInit (collinearRemove t2)

/-- `PolygonalFuzzyNumber.union` (fnumber.py lines 401-462). -/
def pfnUnion (selfPts otherPts : List (ℚ × ℚ)) :
    Except PyErr (List (ℚ × ℚ)) := pfnMergeOp true selfPts otherPts

/-- `PolygonalFuzzyNumber.intersection` (fnumber.py lines 464-525). -/
def pfnIntersection (selfPts otherPts : List (ℚ × ℚ)) :
    Except PyErr (List (ℚ × ℚ)) := pfnMergeOp false selfPts otherPts

end PolygonModel

section GraphModel

/-- A crisp `Graph` (fuzz/graph.py): a directedness flag, a vertex set and
an edge set of `(tail, head)` pairs (`GraphEdge` tuples).  Python stores
both in sets; the embedding uses lists whose order is irrelevant to
membership and which hold no duplicates in the situations modelled
(`add_edge` refuses an exact duplicate). -/
structure PyGraph where
  directed : Bool
  V : List ℕ
  E : List (ℕ × ℕ)
  deriving Repr, DecidableEq

/-- `Graph.edges()` with no constraints (fuzz/graph.py lines 188-209): with
`tail` and `head` both `None` every stored edge passes both comprehensions
(the undirected branch contributes the same edges again, unreversed), so
the result is exactly the stored edge set. -/
def graphEdgesFull (G : PyGraph) : List (ℕ × ℕ) := G.E

/-- `Graph.edges(tail, head)` with both constraints given: stored edges
matching `(tail, head)`, plus — for undirected graphs — stored edges
matching `(head, tail)`.  (The `KeyError` check for unknown vertices is
omitted; every call site in the modelled algorithms passes vertices of the
graph.) -/
def graphEdgesTH (G : PyGraph) (t h : ℕ) : List (ℕ × ℕ) :=
  G.E.filter (fun e => e.1 == t && e.2 == h) ++
    (if G.directed then []
     else G.E.filter (fun e => e.2 == t && e.1 == h))

/-- A Python float edge weight: a finite rational or `float('inf')`. -/
inductive W where
  | fin (q : ℚ)
  | inf
  deriving Repr, DecidableEq

/-- `<=` on weights. -/
def wle : W → W → Bool
  | .fin a, .fin b => a ≤ b
  | .fin _, .inf => true
  | .inf, .fin _ => false
  | .inf, .inf => true

/-- Addition of weights (`inf` absorbs). -/
def wadd : W → W → W
  | .fin a, .fin b => .fin (a + b)
  | _, _ => .inf

/-- `Graph.weight(tail, head)` (fuzz/graph.py lines 211-224): `0` on the
diagonal, else `1` if `GraphEdge((tail, head))` — the stored orientation
only — is a member of `self.edges()` (the full stored edge set), else
`+inf`.  Note the membership test ignores `directed`: the reversed
orientation of an undirected edge is *not* accepted. -/
def graphWeight (G : PyGraph) (t h : ℕ) : W :=
  if t = h then .fin 0
  else if (t, h) ∈ graphEdgesFull G then .fin 1
  else .inf

/-- `Graph.adjacent(tail, head)` (fuzz/graph.py lines 362-376): false on the
diagonal, else the truthiness of `edges(tail, head)` — which does honour
the undirected flag. -/
def graphAdjacent (G : PyGraph) (t h : ℕ) : Bool :=
  if t == h then false else !(graphEdgesTH G t h).isEmpty

/-- `Graph.neighbors(v)` (fuzz/graph.py lines 378-387). -/
def graphNeighbors (G : PyGraph) (v : ℕ) : List ℕ :=
  G.V.filter (fun u => graphAdjacent G v u)

/-- Set union on vertex lists (Python `set` union), keeping the left
operand's elements unique. -/
def listUnion (a b : List ℕ) : List ℕ :=
  a ++ b.filter (fun x => !(a.contains x))

/-- Set difference on vertex lists. -/
def listDiff (a b : List ℕ) : List ℕ :=
  a.filter (fun x => !(b.contains x))

/-- `P |= self.neighbors(vertex) for vertex in N` (fuzz/graph.py lines
409-411). -/
def nbrsOfSet (G : PyGraph) (N : List ℕ) : List ℕ :=
  N.foldl (fun acc v => listUnion acc (graphNeighbors G v)) []

/-- TheBFS loop of `Graph.connected` (fuzz/graph.py lines 405-416).  The
`fuel` argument bounds the number of `while` iterations: each iteration
either returns, breaks, or strictly enlarges the discovered set `D` inside
the fixed vertex set, so `|V| + 1` iterations always suffice and the `0`
case is unreachable at the call site. -/
def connectedLoop (G : PyGraph) : ℕ → List ℕ → List ℕ → ℕ → Bool
  | 0, _, _, _ => false
  | fuel + 1, D, N, head =>
      if head ∈ N then true
      else
        let D' := listUnion D N
        let P := listDiff (nbrsOfSet G N) D'
        if P.isEmpty then false
        else connectedLoop G fuel D' P head

/-- `Graph.connected(tail, head)` (fuzz/graph.py lines 389-416):
breadth-first reachability; `tail == head` answers false by convention. -/
def graphConnected (G : PyGraph) (t h : ℕ) : Bool :=
  if t = h then false
  else connectedLoop G (G.V.length + 1) [] (graphNeighbors G t) h

/-- `Graph.edges_by_weight()` (fuzz/graph.py lines 226-244): the stored
edges sorted ascending by `weight` with a stable sort (Python `list.sort`),
iterating the edge set in its stored order. -/
def edgesByWeight (G : PyGraph) : List (ℕ × ℕ) :=
  sortBy (fun a b => wle (graphWeight G a.1 a.2) (graphWeight G b.1 b.2))
    (graphEdgesFull G)

/-- The Kruskal loop of `Graph.minimum_spanning_tree` (fuzz/graph.py lines
508-511): while the queue is nonempty and `T` has fewer edges than `self`,
pop the cheapest edge and add it to `T` unless its endpoints are already
connected in `T`.  (`T.add_edge` appends: the edge's endpoints are vertices
of `T` and an already-present or reversed duplicate would have made
`connected` true, so its validations cannot fire here.) -/
def mstLoop (G : PyGraph) : List (ℕ × ℕ) → PyGraph → PyGraph
  | [], T => T
  | e :: Q, T =>
      if T.E.length < G.E.length then
        if !(graphConnected T e.1 e.2) then
          mstLoop G Q { T with E := T.E ++ [e] }
        else mstLoop G Q T
      else T

/-- The tree produced by Kruskal for an undirected graph: start from the
edgeless graph on the same vertices (fuzz/graph.py line 506). -/
def mstResult (G : PyGraph) : PyGraph :=
  mstLoop G (edgesByWeight G) ⟨false, G.V, []⟩

/-- `Graph.minimum_spanning_tree()` (fuzz/graph.py lines 494-512): raises
`TypeError('MST cannot be found for directed graphs')` on a directed
graph, otherwise runs Kruskal's algorithm. -/
def minimumSpanningTree (G : PyGraph) : Except PyErr PyGraph :=
  if G.directed then .error .typeError
  else .ok (mstResult G)

/-- The graph is connected: every vertex is reachable (in the sense of the
code's own `connected`) from the first one. -/
def isConnectedGraph (G : PyGraph) : Bool :=
  match G.V with
  | [] => true
  | v0 :: rest => rest.all (fun v => graphConnected G v0 v)

/-- Acyclicity of an undirected graph given as an edge list without
duplicates: no self-loops, and every edge is a bridge (removing it
disconnects its endpoints). -/
def isAcyclicGraph (G : PyGraph) : Bool :=
  G.E.all (fun e =>
    e.1 != e.2 &&
      !(graphConnected { G with E := G.E.erase e } e.1 e.2))

/-- Total weight of an edge list, each edge weighted by `G.weight` in its
stored orientation. -/
def totalWeight (G : PyGraph) (E : List (ℕ × ℕ)) : W :=
  E.foldl (fun acc e => wadd acc (graphWeight G e.1 e.2)) (.fin 0)

/-- `S` spans `G` as a tree: the undirected graph on `G`'s vertices with
edge set `S` is connected and acyclic. -/
def isSpanningTree (G : PyGraph) (S : List (ℕ × ℕ)) : Bool :=
  isConnectedGraph ⟨false, G.V, S⟩ && isAcyclicGraph ⟨false, G.V, S⟩

/-- The undirected graph on vertices `{0,1,2,3}` whose six possible edges
are switched on by the six booleans (brute-force universe for the MST
claim, as the specification itself suggests: "verify via brute force on
small graphs"). -/
def mkG4 (b1 b2 b3 b4 b5 b6 : Bool) : PyGraph :=
  { directed := false
    V := [0, 1, 2, 3]
    E := (if b1 then [(0, 1)] else []) ++ (if b2 then [(0, 2)] else []) ++
         (if b3 then [(0, 3)] else []) ++ (if b4 then [(1, 2)] else []) ++
         (if b5 then [(1, 3)] else []) ++ (if b6 then [(2, 3)] else []) }

/-- Modelled from the spec: `FuzzyGraph` of the current API — a graph whose
vertex and edge sets are fuzzy sets.  The `FuzzyGraph` class shipped in
src/fuzz/fgraph.py is an obsolete revision (Python 2 `raise X, v` syntax,
`edge.obj` attributes) that defines no `weight` method at all, while
src/test.py (`test_weight`, `test_dijkstra_*`) exercises one. -/
structure FuzzyGraphM where
  directed : Bool
  V : FSet ℕ
  E : FSet (ℕ × ℕ)

/-- Modelled from the spec: `FuzzyGraph.mu(tail, head)`, the membership
degree of the edge `(tail, head)` in the edge fuzzy set (0 when absent). -/
def fgMu (G : FuzzyGraphM) (t h : ℕ) : ℚ := fsMu G.E (t, h)

/-- Modelled from the spec (§4.4, `weight(tail, head)`): `0` if
`tail == head`; otherwise `1/mu(tail, head)` — with
`mu = max(mu(t,h), mu(h,t))` when undirected — and `+inf` when that
membership is `0`. -/
def fuzzyGraphWeight (G : FuzzyGraphM) (t h : ℕ) : W :=
  if t = h then .fin 0
  else
    let m := if G.directed then fgMu G t h else max (fgMu G t h) (fgMu G h t)
    if m = 0 then .inf else .fin (1 / m)

/-- The edge fuzzy set of the test.py `TestFuzzyGraph` fixture:
`1-2:0.8, 2-3:1.0, 3-4:0.9, 4-5:0.7, 3-5:0.2, 5-2:0.5, 1-5:0.0`. -/
def testEdges : FSet (ℕ × ℕ) :=
  [((1, 2), 4/5), ((2, 3), 1), ((3, 4), 9/10), ((4, 5), 7/10),
   ((3, 5), 1/5), ((5, 2), 1/2), ((1, 5), 0)]

end GraphModel

section FuzzySetLemmas

variable {K : Type} [DecidableEq K]

theorem fsLookup_isSome_iff {A : FSet K} {k : K} :
    (fsLookup A k).isSome ↔ k ∈ fsKeys A := by
  induction A with
  | nil => simp [fsLookup, fsKeys]
  | cons e es ih =>
      by_cases h : e.1 = k
      · simp [fsLookup, fsKeys, List.find?, h]
      · simpa [fsLookup, fsKeys, List.find?, h, Ne.symm h] using ih

theorem fsLookup_eq_none_of_not_mem {A : FSet K} {k : K}
    (h : k ∉ fsKeys A) : fsLookup A k = none := by
  cases hl : fsLookup A k with
  | none => rfl
  | some v =>
      exact absurd (fsLookup_isSome_iff.1 (by simp [hl])) h

theorem fsMu_eq_zero_of_not_mem {A : FSet K} {k : K}
    (h : k ∉ fsKeys A) : fsMu A k = 0 := by
  simp [fsMu, fsLookup_eq_none_of_not_mem h]

theorem fsLookup_append (A B : FSet K) (k : K) :
    fsLookup (A ++ B) k = ((fsLookup A k).or (fsLookup B k)) := by
  induction A with
  | nil => simp [fsLookup]
  | cons e es ih =>
      by_cases h : e.1 = k
      · simp [fsLookup, List.find?, h]
      · simpa [fsLookup, List.find?, h] using ih

theorem fsLookup_singleton (e : K × ℚ) (k : K) :
    fsLookup [e] k = if e.1 = k then some e.2 else none := by
  by_cases h : e.1 = k <;> simp [fsLookup, List.find?, h]

theorem fsLookup_fsAdd (A : FSet K) (e : K × ℚ) (k : K) :
    fsLookup (fsAdd A e) k =
      if k = e.1 then (fsLookup A k).or (some e.2) else fsLookup A k := by
  unfold fsAdd
  by_cases hmem : e.1 ∈ fsKeys A
  · simp only [hmem, if_true]
    by_cases hk : k = e.1
    · subst hk
      rcases Option.isSome_iff_exists.1 (fsLookup_isSome_iff.2 hmem) with ⟨v, hv⟩
      simp [hv]
    · simp [hk]
  · simp only [hmem, if_false]
    rw [fsLookup_append, fsLookup_singleton]
    by_cases hk : k = e.1
    · subst hk
      rw [fsLookup_eq_none_of_not_mem hmem]
      simp
    · rw [if_neg (fun h => hk h.symm), if_neg hk]
      cases fsLookup A k <;> simp

theorem fsLookup_cons (e : K × ℚ) (es : FSet K) (k : K) :
    fsLookup (e :: es) k = if e.1 = k then some e.2 else fsLookup es k := by
  by_cases h : e.1 = k <;> simp [fsLookup, List.find?, h]

theorem fsLookup_fsUpdate (l : List (K × ℚ)) (A : FSet K) (k : K) :
    fsLookup (fsUpdate A l) k = (fsLookup A k).or (fsLookup l k) := by
  induction l generalizing A with
  | nil => simp [fsUpdate, fsLookup]
  | cons e es ih =>
      show fsLookup (fsUpdate (fsAdd A e) es) k = _
      rw [ih, fsLookup_fsAdd, fsLookup_cons]
      by_cases hk : k = e.1
      · subst hk
        rw [if_pos rfl, if_pos rfl]
        cases fsLookup A e.1 <;> cases fsLookup es e.1 <;> rfl
      · rw [if_neg hk, if_neg (fun h => hk h.symm)]

theorem fsLookup_map_pairs (ks : List K) (f : K → ℚ) (k : K) :
    fsLookup (ks.map (fun k => (k, f k))) k =
      if k ∈ ks then some (f k) else none := by
  induction ks with
  | nil => simp [fsLookup]
  | cons k0 rest ih =>
      rw [List.map_cons, fsLookup_cons]
      by_cases h : k0 = k
      · subst h
        simp
      · rw [if_neg h, ih]
        by_cases hm : k ∈ rest
        · rw [if_pos hm, if_pos (List.mem_cons.2 (Or.inr hm))]
        · rw [if_neg hm, if_neg (fun hc => by
            rcases List.mem_cons.1 hc with hc | hc
            · exact h hc.symm
            · exact hm hc)]

theorem fsLookup_fsBuild (ks : List K) (f : K → ℚ) (k : K) :
    fsLookup (fsBuild ks f) k = if k ∈ ks then some (f k) else none := by
  unfold fsBuild
  rw [fsLookup_fsUpdate, fsLookup_map_pairs]
  rfl

theorem fsMu_fsBuild (ks : List K) (f : K → ℚ) (k : K) :
    fsMu (fsBuild ks f) k = if k ∈ ks then f k else 0 := by
  rw [fsMu, fsLookup_fsBuild]
  by_cases h : k ∈ ks <;> simp [h]

theorem mem_fsKeys_fsBuild {ks : List K} {f : K → ℚ} {k : K} :
    k ∈ fsKeys (fsBuild ks f) ↔ k ∈ ks := by
  rw [← fsLookup_isSome_iff, fsLookup_fsBuild]
  by_cases h : k ∈ ks <;> simp [h]

omit [DecidableEq K] in
theorem fsKeys_append (A B : FSet K) :
    fsKeys (A ++ B) = fsKeys A ++ fsKeys B := by
  simp [fsKeys]

theorem UKeys_fsAdd {A : FSet K} (h : UKeys A) (e : K × ℚ) :
    UKeys (fsAdd A e) := by
  unfold fsAdd
  by_cases hmem : e.1 ∈ fsKeys A
  · simpa [hmem]
  · rw [if_neg hmem]
    unfold UKeys
    rw [fsKeys_append]
    refine List.nodup_append.2 ⟨h, List.nodup_singleton _, ?_⟩
    intro a ha hb
    simp only [fsKeys, List.map_cons, List.map_nil, List.mem_singleton] at hb
    exact hmem (hb ▸ ha)

theorem UKeys_fsUpdate {A : FSet K} (h : UKeys A) (l : List (K × ℚ)) :
    UKeys (fsUpdate A l) := by
  induction l generalizing A with
  | nil => exact h
  | cons e es ih => exact ih (UKeys_fsAdd h e)

theorem UKeys_fsBuild (ks : List K) (f : K → ℚ) : UKeys (fsBuild ks f) :=
  UKeys_fsUpdate (by simp [UKeys, fsKeys]) _

omit [DecidableEq K] in
theorem UKeys_fsActive {A : FSet K} (h : UKeys A) : UKeys (fsActive A) :=
  ((List.filter_sublist A).map Prod.fst).nodup h

theorem fsUpdate_fresh {A : FSet K} (l : List (K × ℚ))
    (hn : (fsKeys l).Nodup) (hf : ∀ k, k ∈ fsKeys l → k ∉ fsKeys A) :
    fsUpdate A l = A ++ l := by
  induction l generalizing A with
  | nil => simp [fsUpdate]
  | cons e es ih =>
      show fsUpdate (fsAdd A e) es = _
      have hd := List.nodup_cons.1 (show (e.1 :: fsKeys es).Nodup from hn)
      have he : e.1 ∉ fsKeys A := hf e.1 (List.mem_cons_self _ _)
      have hstep : fsAdd A e = A ++ [e] := if_neg he
      rw [hstep, ih]
      · simp
      · exact hd.2
      · intro k hk
        have hkes : k ∈ fsKeys es := hk
        have hkne : k ≠ e.1 := fun hkk => hd.1 (hkk ▸ hkes)
        rw [fsKeys_append, List.mem_append]
        rintro (hc | hc)
        · exact hf k (List.mem_cons.2 (Or.inr hkes)) hc
        · exact hkne (by simpa [fsKeys] using hc)

theorem fsCopyOf_eq_fsActive {A : FSet K} (h : UKeys A) :
    fsCopyOf A = fsActive A := by
  unfold fsCopyOf
  rw [fsUpdate_fresh (fsActive A) (UKeys_fsActive h) (by simp [fsKeys])]
  simp

theorem fsALk_eq (A : FSet K) (k : K) :
    fsALk A k = if 0 < fsMu A k then some (fsMu A k) else none := by
  unfold fsALk fsMu
  cases h : fsLookup A k with
  | none => simp
  | some v => simp

omit [DecidableEq K] in
theorem mem_fsKeys_of_mem_fsKeys_fsActive {A : FSet K} {k : K}
    (h : k ∈ fsKeys (fsActive A)) : k ∈ fsKeys A :=
  ((List.filter_sublist A).map Prod.fst).subset h

omit [DecidableEq K] in
theorem fsActive_cons_pos {e : K × ℚ} {es : FSet K} (hp : 0 < e.2) :
    fsActive (e :: es) = e :: fsActive es := by
  simp [fsActive, List.filter_cons, hp]

omit [DecidableEq K] in
theorem fsActive_cons_nonpos {e : K × ℚ} {es : FSet K} (hp : ¬ 0 < e.2) :
    fsActive (e :: es) = fsActive es := by
  simp [fsActive, List.filter_cons, hp]

theorem fsLookup_fsActive {A : FSet K} (h : UKeys A) (k : K) :
    fsLookup (fsActive A) k = fsALk A k := by
  induction A with
  | nil => simp [fsActive, fsLookup, fsALk]
  | cons e es ih =>
      have hd := List.nodup_cons.1 (show (e.1 :: fsKeys es).Nodup from h)
      have hn : UKeys es := hd.2
      have hne : e.1 ∉ fsKeys es := hd.1
      by_cases hk : e.1 = k
      · subst hk
        have hRHS : fsALk (e :: es) e.1 =
            if 0 < e.2 then some e.2 else none := by
          unfold fsALk
          rw [fsLookup_cons, if_pos rfl]
          by_cases hp : 0 < e.2 <;> simp [hp]
        by_cases hp : 0 < e.2
        · rw [fsActive_cons_pos hp, fsLookup_cons, if_pos rfl, hRHS, if_pos hp]
        · rw [fsActive_cons_nonpos hp, hRHS, if_neg hp]
          exact fsLookup_eq_none_of_not_mem
            (fun hc => hne (mem_fsKeys_of_mem_fsKeys_fsActive hc))
      · have hRHS : fsALk (e :: es) k = fsALk es k := by
          unfold fsALk
          rw [fsLookup_cons, if_neg hk]
        rw [hRHS, ← ih hn]
        by_cases hp : 0 < e.2
        · rw [fsActive_cons_pos hp, fsLookup_cons, if_neg hk]
        · rw [fsActive_cons_nonpos hp]

theorem mem_fsKeys_fsActive_iff {A : FSet K} (h : UKeys A) {k : K} :
    k ∈ fsKeys (fsActive A) ↔ (fsALk A k).isSome := by
  rw [← fsLookup_isSome_iff, fsLookup_fsActive h]

theorem fsALk_some_iff {A : FSet K} {k : K} {v : ℚ} :
    fsALk A k = some v ↔ fsLookup A k = some v ∧ 0 < v := by
  unfold fsALk
  cases h : fsLookup A k with
  | none => simp
  | some w =>
      by_cases hw : 0 < w
      · constructor
        · intro hh
          have hwv : w = v := by simpa [hw] using hh
          subst hwv
          exact ⟨rfl, hw⟩
        · rintro ⟨hww, -⟩
          have hwv : w = v := Option.some_inj.1 hww
          subst hwv
          simp [hw]
      · constructor
        · intro hh
          simp [hw] at hh
        · rintro ⟨hww, hv⟩
          have hwv : w = v := Option.some_inj.1 hww
          exact absurd (hwv ▸ hv) hw

theorem fsLookup_of_mem {A : FSet K} (h : UKeys A) {e : K × ℚ}
    (he : e ∈ A) : fsLookup A e.1 = some e.2 := by
  induction A with
  | nil => cases he
  | cons f fs ih =>
      have hd := List.nodup_cons.1 (show (f.1 :: fsKeys fs).Nodup from h)
      rcases List.mem_cons.1 he with rfl | he'
      · rw [fsLookup_cons, if_pos rfl]
      · have hne : f.1 ≠ e.1 := by
          intro hc
          exact hd.1 (hc ▸ List.mem_map_of_mem Prod.fst he')
        rw [fsLookup_cons, if_neg hne]
        exact ih hd.2 he'

theorem fsMu_nonneg {A : FSet K} (h : fsNonneg A) (k : K) : 0 ≤ fsMu A k := by
  unfold fsMu fsLookup
  cases hf : A.find? (fun e => e.1 = k) with
  | none => simp
  | some e =>
      have := h e (List.mem_of_find?_eq_some hf)
      simpa using this

theorem fsLen_eq_of_aLk {A B : FSet K} (hA : UKeys A) (hB : UKeys B)
    (h : ∀ k, fsALk A k = fsALk B k) : fsLen A = fsLen B := by
  have hperm : List.Perm (fsKeys (fsActive A)) (fsKeys (fsActive B)) := by
    rw [List.perm_ext_iff_of_nodup (UKeys_fsActive hA) (UKeys_fsActive hB)]
    intro k
    rw [mem_fsKeys_fsActive_iff hA, mem_fsKeys_fsActive_iff hB, h k]
  have := hperm.length_eq
  simpa [fsKeys, fsLen] using this

theorem fsEq_of_aLk {A B : FSet K} (hA : UKeys A) (hB : UKeys B)
    (h : ∀ k, fsALk A k = fsALk B k) : fsEq A B = true := by
  unfold fsEq
  rw [Bool.and_eq_true]
  constructor
  · exact beq_iff_eq.2 (fsLen_eq_of_aLk hA hB h)
  · rw [List.all_eq_true]
    intro e he
    have hmem : e ∈ A ∧ 0 < e.2 := by
      have := List.mem_filter.1 he
      exact ⟨this.1, by simpa using this.2⟩
    have hAv : fsALk A e.1 = some e.2 :=
      fsALk_some_iff.2 ⟨fsLookup_of_mem hA hmem.1, hmem.2⟩
    have hBv : fsLookup B e.1 = some e.2 := (fsALk_some_iff.1 ((h e.1) ▸ hAv)).1
    rw [hBv]
    simp

theorem fsKeys_fsSetMu (r : FSet K) (k : K) (v : ℚ) :
    fsKeys (fsSetMu r k v) = fsKeys r := by
  induction r with
  | nil => rfl
  | cons e es ih =>
      by_cases h : e.1 = k <;>
        simp [fsSetMu, fsKeys, h] <;>
        simpa [fsSetMu, fsKeys] using ih

theorem fsLookup_fsSetMu (r : FSet K) (k : K) (v : ℚ) (x : K) :
    fsLookup (fsSetMu r k v) x =
      if x = k then (fsLookup r k).map (fun _ => v) else fsLookup r x := by
  induction r with
  | nil =>
      by_cases hx : x = k <;> simp [fsSetMu, fsLookup, hx]
  | cons e es ih =>
      have hcons : fsSetMu (e :: es) k v =
          (if e.1 = k then (k, v) else e) :: fsSetMu es k v := rfl
      by_cases he : e.1 = k
      · by_cases hx : x = k
        · subst hx
          rw [hcons, if_pos he, fsLookup_cons, if_pos rfl, if_pos rfl,
            fsLookup_cons, if_pos he]
          rfl
        · rw [hcons, if_pos he, fsLookup_cons,
            if_neg (show ¬ ((k, v).1 = x) from fun hc => hx hc.symm), ih,
            if_neg hx, if_neg hx, fsLookup_cons,
            if_neg (show ¬ (e.1 = x) from fun hc => hx (he ▸ hc).symm)]
      · by_cases hx : e.1 = x
        · have hxk : ¬ x = k := fun hc => he (hx.symm ▸ hc)
          rw [hcons, if_neg he, fsLookup_cons, if_pos hx, if_neg hxk,
            fsLookup_cons, if_pos hx]
        · rw [hcons, if_neg he, fsLookup_cons, if_neg hx, ih]
          by_cases hxk : x = k
          · rw [if_pos hxk, if_pos hxk, fsLookup_cons, if_neg (hxk ▸ he)]
          · rw [if_neg hxk, if_neg hxk, fsLookup_cons, if_neg hx]

theorem fsMu_fsSetMu_ne (r : FSet K) (k : K) (v : ℚ) {x : K} (h : x ≠ k) :
    fsMu (fsSetMu r k v) x = fsMu r x := by
  rw [fsMu, fsLookup_fsSetMu, if_neg h, fsMu]

theorem euFold_lookup (l : List (K × ℚ)) (r : FSet K) (ks : List K)
    (hn : (fsKeys l).Nodup)
    (hsub : ∀ k ∈ ks, k ∈ fsKeys r)
    (hfresh : ∀ k, k ∈ fsKeys l → k ∉ ks → k ∉ fsKeys r) (k : K) :
    fsLookup (l.foldl (euStep ks) r) k =
      match fsLookup l k with
      | some v => if k ∈ ks then some (max (fsMu r k) v) else some v
      | none => fsLookup r k := by
  induction l generalizing r with
  | nil => simp [fsLookup]
  | cons e es ih =>
      have hd := List.nodup_cons.1 (show (e.1 :: fsKeys es).Nodup from hn)
      rw [List.foldl_cons]
      by_cases he : e.1 ∈ ks
      · have hr' : euStep ks r e = fsSetMu r e.1 (max (fsMu r e.1) e.2) :=
          if_pos he
        have hkeys : fsKeys (euStep ks r e) = fsKeys r := by
          rw [hr', fsKeys_fsSetMu]
        rw [ih (euStep ks r e) hd.2 (fun x hx => hkeys ▸ hsub x hx)
          (fun x hx1 hx2 => hkeys ▸
            hfresh x (List.mem_cons.2 (Or.inr hx1)) hx2)]
        by_cases hk : e.1 = k
        · subst hk
          rw [fsLookup_eq_none_of_not_mem hd.1,
            show fsLookup (e :: es) e.1 = some e.2 from by
              rw [fsLookup_cons, if_pos rfl]]
          show fsLookup (euStep ks r e) e.1 =
            if e.1 ∈ ks then some (max (fsMu r e.1) e.2) else some e.2
          rcases Option.isSome_iff_exists.1
            (fsLookup_isSome_iff.2 (hsub _ he)) with ⟨w, hw⟩
          rw [if_pos he, hr', fsLookup_fsSetMu, if_pos rfl, hw]
          rfl
        · have h1 : fsLookup (e :: es) k = fsLookup es k := by
            rw [fsLookup_cons, if_neg hk]
          have h2 : fsLookup (euStep ks r e) k = fsLookup r k := by
            rw [hr', fsLookup_fsSetMu, if_neg (fun hc => hk hc.symm)]
          have h3 : fsMu (euStep ks r e) k = fsMu r k := by
            rw [fsMu, h2, fsMu]
          rw [h1]
          cases hes : fsLookup es k with
          | none => exact h2
          | some v =>
              show (if k ∈ ks then some (max (fsMu (euStep ks r e) k) v)
                    else some v) =
                   (if k ∈ ks then some (max (fsMu r k) v) else some v)
              rw [h3]
      · have hr' : euStep ks r e = r ++ [e] := if_neg he
        have hlk1 : e.1 ∉ fsKeys r := hfresh e.1 (List.mem_cons_self _ _) he
        have hkeys : fsKeys (euStep ks r e) = fsKeys r ++ [e.1] := by
          rw [hr', fsKeys_append]
          rfl
        rw [ih (euStep ks r e) hd.2
          (fun x hx => by
            rw [hkeys, List.mem_append]
            exact Or.inl (hsub x hx))
          (fun x hx1 hx2 => by
            rw [hkeys, List.mem_append]
            rintro (hc | hc)
            · exact hfresh x (List.mem_cons.2 (Or.inr hx1)) hx2 hc
            · have hxe : x = e.1 := by simpa using hc
              exact hd.1 (hxe ▸ hx1))]
        by_cases hk : e.1 = k
        · subst hk
          rw [fsLookup_eq_none_of_not_mem hd.1,
            show fsLookup (e :: es) e.1 = some e.2 from by
              rw [fsLookup_cons, if_pos rfl]]
          show fsLookup (euStep ks r e) e.1 =
            if e.1 ∈ ks then some (max (fsMu r e.1) e.2) else some e.2
          rw [if_neg he, hr', fsLookup_append,
            fsLookup_eq_none_of_not_mem hlk1, fsLookup_singleton, if_pos rfl]
          rfl
        · have h1 : fsLookup (e :: es) k = fsLookup es k := by
            rw [fsLookup_cons, if_neg hk]
          have h2 : fsLookup (euStep ks r e) k = fsLookup r k := by
            rw [hr', fsLookup_append, fsLookup_singleton, if_neg hk]
            cases fsLookup r k <;> rfl
          have h3 : fsMu (euStep ks r e) k = fsMu r k := by
            rw [fsMu, h2, fsMu]
          rw [h1]
          cases hes : fsLookup es k with
          | none => exact h2
          | some v =>
              show (if k ∈ ks then some (max (fsMu (euStep ks r e) k) v)
                    else some v) =
                   (if k ∈ ks then some (max (fsMu r k) v) else some v)
              rw [h3]

theorem euFold_UKeys (l : List (K × ℚ)) (r : FSet K) (ks : List K)
    (hn : (fsKeys l).Nodup) (hr : UKeys r)
    (hfresh : ∀ k, k ∈ fsKeys l → k ∉ ks → k ∉ fsKeys r) :
    UKeys (l.foldl (euStep ks) r) := by
  induction l generalizing r with
  | nil => exact hr
  | cons e es ih =>
      have hd := List.nodup_cons.1 (show (e.1 :: fsKeys es).Nodup from hn)
      rw [List.foldl_cons]
      by_cases he : e.1 ∈ ks
      · have hr' : euStep ks r e = fsSetMu r e.1 (max (fsMu r e.1) e.2) :=
          if_pos he
        have hkeys : fsKeys (euStep ks r e) = fsKeys r := by
          rw [hr', fsKeys_fsSetMu]
        exact ih (euStep ks r e) hd.2 (by unfold UKeys; rw [hkeys]; exact hr)
          (fun x hx1 hx2 => hkeys ▸
            hfresh x (List.mem_cons.2 (Or.inr hx1)) hx2)
      · have hr' : euStep ks r e = r ++ [e] := if_neg he
        have hlk1 : e.1 ∉ fsKeys r := hfresh e.1 (List.mem_cons_self _ _) he
        have hkeys : fsKeys (euStep ks r e) = fsKeys r ++ [e.1] := by
          rw [hr', fsKeys_append]
          rfl
        refine ih (euStep ks r e) hd.2 ?_ ?_
        · unfold UKeys
          rw [hkeys]
          refine List.nodup_append.2 ⟨hr, List.nodup_singleton _, ?_⟩
          intro a ha hb
          exact hlk1 ((List.mem_singleton.1 hb) ▸ ha)
        · intro x hx1 hx2
          rw [hkeys, List.mem_append]
          rintro (hc | hc)
          · exact hfresh x (List.mem_cons.2 (Or.inr hx1)) hx2 hc
          · exact hd.1 (((List.mem_singleton.1 hc)) ▸ hx1)

theorem UKeys_fsEfficientUnion {A B : FSet K} (hA : UKeys A) (hB : UKeys B) :
    UKeys (fsEfficientUnion A B) := by
  unfold fsEfficientUnion
  rw [fsCopyOf_eq_fsActive hA]
  exact euFold_UKeys _ _ _ (UKeys_fsActive hB) (UKeys_fsActive hA)
    (fun k _ h2 => h2)

theorem fsEfficientUnion_fsLookup {A B : FSet K} (hA : UKeys A)
    (hB : UKeys B) (hA' : fsNonneg A) (hB' : fsNonneg B) (k : K) :
    fsLookup (fsEfficientUnion A B) k =
      if 0 < max (fsMu A k) (fsMu B k) then some (max (fsMu A k) (fsMu B k))
      else none := by
  have ha0 := fsMu_nonneg hA' k
  have hb0 := fsMu_nonneg hB' k
  unfold fsEfficientUnion
  rw [fsCopyOf_eq_fsActive hA]
  rw [euFold_lookup (fsActive B) (fsActive A) (fsKeys (fsActive A))
    (UKeys_fsActive hB) (fun x hx => hx) (fun x _ h2 => h2) k]
  have hBlk : fsLookup (fsActive B) k =
      (if 0 < fsMu B k then some (fsMu B k) else none) := by
    rw [fsLookup_fsActive hB, fsALk_eq]
  by_cases hb : 0 < fsMu B k
  · have hsc : fsLookup (fsActive B) k = some (fsMu B k) := by
      rw [hBlk, if_pos hb]
    rw [hsc]
    by_cases ha : 0 < fsMu A k
    · have hmem : k ∈ fsKeys (fsActive A) :=
        (mem_fsKeys_fsActive_iff hA).2 (by rw [fsALk_eq, if_pos ha]; rfl)
      have hmua : fsMu (fsActive A) k = fsMu A k := by
        rw [fsMu, fsLookup_fsActive hA, fsALk_eq, if_pos ha]
        rfl
      show (if k ∈ fsKeys (fsActive A)
            then some (max (fsMu (fsActive A) k) (fsMu B k))
            else some (fsMu B k)) = _
      rw [if_pos hmem, hmua, if_pos (lt_max_iff.2 (Or.inl ha))]
    · have ha' : fsMu A k = 0 := le_antisymm (not_lt.1 ha) ha0
      have hmem : k ∉ fsKeys (fsActive A) := by
        intro hc
        have hs := (mem_fsKeys_fsActive_iff hA).1 hc
        rw [fsALk_eq, if_neg ha] at hs
        simp at hs
      show (if k ∈ fsKeys (fsActive A)
            then some (max (fsMu (fsActive A) k) (fsMu B k))
            else some (fsMu B k)) = _
      rw [if_neg hmem, ha', max_eq_right hb0, if_pos hb]
  · have hb' : fsMu B k = 0 := le_antisymm (not_lt.1 hb) hb0
    have hsc : fsLookup (fsActive B) k = none := by
      rw [hBlk, if_neg hb]
    rw [hsc]
    show fsLookup (fsActive A) k = _
    rw [fsLookup_fsActive hA, fsALk_eq, hb', max_eq_left ha0]

theorem fsMu_fsEfficientUnion {A B : FSet K} (hA : UKeys A) (hB : UKeys B)
    (hA' : fsNonneg A) (hB' : fsNonneg B) (k : K) :
    fsMu (fsEfficientUnion A B) k = max (fsMu A k) (fsMu B k) := by
  rw [fsMu, fsEfficientUnion_fsLookup hA hB hA' hB' k]
  by_cases h : 0 < max (fsMu A k) (fsMu B k)
  · rw [if_pos h]
    rfl
  · rw [if_neg h]
    have h0 : (0:ℚ) ≤ max (fsMu A k) (fsMu B k) :=
      le_max_of_le_left (fsMu_nonneg hA' k)
    have := le_antisymm (not_lt.1 h) h0
    simpa using this.symm

theorem mem_fsBothKeys {A B : FSet K} {k : K} :
    k ∈ fsBothKeys A B ↔ k ∈ fsKeys A ∨ k ∈ fsKeys B := by
  rw [fsBothKeys, List.mem_dedup, List.mem_append]

theorem fsMu_fsUnion_std (A B : FSet K) (k : K) :
    fsMu (fsUnion A B 0) k = max (fsMu A k) (fsMu B k) := by
  rw [fsUnion, fsMu_fsBuild]
  by_cases h : k ∈ fsBothKeys A B
  · rw [if_pos h]
    rfl
  · rw [if_neg h]
    have hm := (not_iff_not.2 (mem_fsBothKeys (A := A) (B := B) (k := k))).1 h
    push_neg at hm
    rw [fsMu_eq_zero_of_not_mem hm.1, fsMu_eq_zero_of_not_mem hm.2]
    simp

theorem fsEq_of_mu {A B : FSet K} (hA : UKeys A) (hB : UKeys B)
    (h : ∀ k, fsMu A k = fsMu B k) : fsEq A B = true :=
  fsEq_of_aLk hA hB (fun k => by rw [fsALk_eq, fsALk_eq, h k])

end FuzzySetLemmas

/-- C2: for all fuzzy sets `A`, `B` (unique keys, membership degrees in
`[0,1]`, here only nonnegativity is needed), `A.efficient_union(B)` — the
path taken by the `|` operator — is equal under `FuzzySet.__eq__` to
`A.union(B, NORM_STANDARD)`, and both results carry membership
`max(A.mu(key), B.mu(key))` at every key. -/
theorem claim_C2_efficient_union_refines_standard {K : Type} [DecidableEq K]
    (A B : FSet K) (hA : UKeys A) (hB : UKeys B)
    (hA' : fsNonneg A) (hB' : fsNonneg B) :
    fsEq (fsEfficientUnion A B) (fsUnion A B 0) = true ∧
    (∀ k, fsMu (fsEfficientUnion A B) k = max (fsMu A k) (fsMu B k)) ∧
    (∀ k, fsMu (fsUnion A B 0) k = max (fsMu A k) (fsMu B k)) := by
  refine ⟨?_, fun k => fsMu_fsEfficientUnion hA hB hA' hB' k,
    fun k => fsMu_fsUnion_std A B k⟩
  exact fsEq_of_mu (UKeys_fsEfficientUnion hA hB) (UKeys_fsBuild _ _)
    (fun k => by
      rw [fsMu_fsEfficientUnion hA hB hA' hB' k, fsMu_fsUnion_std A B k])

/-- Witness for C2 at the fuzzy sets `{1:1.0, 2:0.5}` and `{2:0.8, 4:0.6}`
(the test.py sets with keys renamed to numbers), sampled at keys 2 and 4. -/
theorem claim_C2_efficient_union_refines_standard_witness :
    fsEq (fsEfficientUnion [((1:ℕ), (1:ℚ)), (2, 1/2)] [(2, 4/5), (4, 3/5)])
        (fsUnion [((1:ℕ), (1:ℚ)), (2, 1/2)] [(2, 4/5), (4, 3/5)] 0) = true ∧
    fsMu (fsEfficientUnion [((1:ℕ), (1:ℚ)), (2, 1/2)] [(2, 4/5), (4, 3/5)]) 2 =
      max (fsMu [((1:ℕ), (1:ℚ)), (2, 1/2)] 2) (fsMu [(2, 4/5), (4, 3/5)] 2) ∧
    fsMu (fsUnion [((1:ℕ), (1:ℚ)), (2, 1/2)] [(2, 4/5), (4, 3/5)] 0) 4 =
      max (fsMu [((1:ℕ), (1:ℚ)), (2, 1/2)] 4) (fsMu [(2, 4/5), (4, 3/5)] 4) :=
  ⟨(claim_C2_efficient_union_refines_standard _ _ (by decide) (by decide)
      (by decide) (by decide)).1,
   (claim_C2_efficient_union_refines_standard _ _ (by decide) (by decide)
      (by decide) (by decide)).2.1 2,
   (claim_C2_efficient_union_refines_standard _ _ (by decide) (by decide)
      (by decide) (by decide)).2.2 4⟩

/-- The Python truthiness chain of the DRASTIC intersection,
`(a == 1.0 and b) or (b == 1.0 and a) or 0.0`, agrees with the
specification's table `b if a=1, a if b=1, else 0` at every pair of
membership degrees (the `mu = 0` corner is absorbed by the final `0.0`). -/
theorem tnorm_drastic_eq (a b : ℚ) :
    tnorm 3 a b = if a = 1 then b else if b = 1 then a else 0 := by
  show (if a = 1 ∧ b ≠ 0 then b else if b = 1 ∧ a ≠ 0 then a else 0) = _
  by_cases ha : a = 1
  · rw [if_pos ha]
    by_cases hb : b = 0
    · rw [if_neg (fun hc => hc.2 hb)]
      by_cases hb1 : b = 1
      · exact absurd (hb1 ▸ hb) one_ne_zero
      · rw [if_neg (fun hc => hb1 hc.1), hb]
    · rw [if_pos ⟨ha, hb⟩]
  · rw [if_neg ha, if_neg (fun hc => ha hc.1)]
    by_cases hb1 : b = 1
    · rw [if_pos hb1]
      by_cases ha0 : a = 0
      · rw [if_neg (fun hc => hc.2 ha0), ha0]
      · rw [if_pos ⟨hb1, ha0⟩]
    · rw [if_neg (fun hc => hb1 hc.1), if_neg hb1]

/-- C5 (amended): over every key considered by the operation,
`union(A, B, DRASTIC)` assigns `b` when `a = 0` and `b ≠ 0`, `a` when
`b = 0` and `a ≠ 0`, and `1` otherwise — in particular it assigns `1`, not
`0`, when `a = b = 0`, because the Python expression
`(a == 0.0 and b) or (b == 0.0 and a) or 1.0` treats the value `0.0` as
falsy and falls through to `1.0`.  `intersection(A, B, DRASTIC)` assigns
exactly `b` if `a = 1`, `a` if `b = 1`, and `0` otherwise, as the claim
states. -/
theorem claim_C5_drastic_norms {K : Type} [DecidableEq K]
    (A B : FSet K) (k : K) :
    (k ∈ fsKeys A ∨ k ∈ fsKeys B →
      fsMu (fsUnion A B 3) k =
        (if fsMu A k = 0 ∧ fsMu B k ≠ 0 then fsMu B k
         else if fsMu B k = 0 ∧ fsMu A k ≠ 0 then fsMu A k else 1)) ∧
    (k ∈ fsKeys A →
      fsMu (fsIntersection A B 3) k =
        (if fsMu A k = 1 then fsMu B k
         else if fsMu B k = 1 then fsMu A k else 0)) := by
  constructor
  · intro h
    rw [fsUnion, fsMu_fsBuild, if_pos (mem_fsBothKeys.2 h)]
    rfl
  · intro h
    rw [fsIntersection, fsMu_fsBuild, if_pos h, tnorm_drastic_eq]

/-- Counterexample to C5 as stated: on the fuzzy sets `A = {0 \ 0.0}` and
`B = {}` (so `a = A.mu(0) = 0` and `b = B.mu(0) = 0`, and key 0 is
considered by the union), the claim's table says the DRASTIC union assigns
`b = 0`, but the code assigns `1`. -/
theorem claim_C5_drastic_counterexample :
    fsMu [((0:ℕ), (0:ℚ))] 0 = 0 ∧ fsMu ([] : FSet ℕ) 0 = 0 ∧
    0 ∈ fsKeys [((0:ℕ), (0:ℚ))] ∧
    fsMu (fsUnion [((0:ℕ), (0:ℚ))] [] 3) 0 = 1 := by
  refine ⟨rfl, rfl, by decide, ?_⟩
  decide

/-- Witness for C5 (amended) at `A = B = {0 \ 0.5}` and key 0: both
memberships are `0.5`, so the DRASTIC union is 1 and the DRASTIC
intersection is 0. -/
theorem claim_C5_drastic_norms_witness :
    fsMu (fsUnion [((0:ℕ), (1:ℚ)/2)] [((0:ℕ), (1:ℚ)/2)] 3) 0 = 1 ∧
    fsMu (fsIntersection [((0:ℕ), (1:ℚ)/2)] [((0:ℕ), (1:ℚ)/2)] 3) 0 = 0 :=
  ⟨((claim_C5_drastic_norms [((0:ℕ), (1:ℚ)/2)] [((0:ℕ), (1:ℚ)/2)] 0).1
      (Or.inl (by decide))).trans (by decide),
   ((claim_C5_drastic_norms [((0:ℕ), (1:ℚ)/2)] [((0:ℕ), (1:ℚ)/2)] 0).2
      (by decide)).trans (by decide)⟩

/-- C8 (amended): with the STANDARD complement, the ALGEBRAIC norms satisfy
De Morgan's law under `FuzzySet.__eq__` whenever `A` and `B` range over the
same key set.  (When a key of `A` is missing from `B`, `complement(B)` reads
`mu = 0` there instead of `1`, and the law fails — see the
counterexample.) -/
theorem claim_C8_algebraic_deMorgan {K : Type} [DecidableEq K] (A B : FSet K)
    (hkeys : ∀ k, k ∈ fsKeys A ↔ k ∈ fsKeys B) :
    fsEq (fsComplement (fsUnion A B 1))
      (fsIntersection (fsComplement A) (fsComplement B) 1) = true := by
  refine fsEq_of_mu (UKeys_fsBuild _ _) (UKeys_fsBuild _ _) (fun k => ?_)
  rw [fsComplement, fsMu_fsBuild, fsIntersection, fsMu_fsBuild]
  by_cases hk : k ∈ fsKeys A
  · have hkB : k ∈ fsKeys B := (hkeys k).1 hk
    have hkU : k ∈ fsKeys (fsUnion A B 1) := by
      rw [fsUnion]
      exact mem_fsKeys_fsBuild.2 (mem_fsBothKeys.2 (Or.inl hk))
    have hkCA : k ∈ fsKeys (fsComplement A) := by
      rw [fsComplement]
      exact mem_fsKeys_fsBuild.2 hk
    rw [if_pos hkU, if_pos hkCA, fsUnion, fsMu_fsBuild,
      if_pos (mem_fsBothKeys.2 (Or.inl hk)), fsComplement, fsMu_fsBuild,
      if_pos hk, fsComplement, fsMu_fsBuild, if_pos hkB]
    show 1 - tconorm 1 (fsMu A k) (fsMu B k) = _
    show 1 - (fsMu A k + fsMu B k - fsMu A k * fsMu B k) =
      tnorm 1 (1 - fsMu A k) (1 - fsMu B k)
    show _ = (1 - fsMu A k) * (1 - fsMu B k)
    ring
  · have hkB : k ∉ fsKeys B := fun hc => hk ((hkeys k).2 hc)
    have hkU : k ∉ fsKeys (fsUnion A B 1) := by
      rw [fsUnion]
      intro hc
      rcases mem_fsBothKeys.1 (mem_fsKeys_fsBuild.1 hc) with hc | hc
      · exact hk hc
      · exact hkB hc
    have hkCA : k ∉ fsKeys (fsComplement A) := by
      rw [fsComplement]
      exact fun hc => hk (mem_fsKeys_fsBuild.1 hc)
    rw [if_neg hkU, if_neg hkCA]

/-- Counterexample to C8 as stated: with `A = {0 \ 0.5}` and `B = {}`, the
left side `complement(union(A,B,ALGEBRAIC))` is `{0 \ 0.5}` but the right
side `intersection(complement(A), complement(B), ALGEBRAIC)` is `{0 \ 0.0}`
(because `complement(B).mu(0) = 0`, not `1`), and `FuzzySet.__eq__` reports
them different. -/
theorem claim_C8_algebraic_deMorgan_counterexample :
    fsEq (fsComplement (fsUnion [((0:ℕ), (1:ℚ)/2)] [] 1))
      (fsIntersection (fsComplement [((0:ℕ), (1:ℚ)/2)])
        (fsComplement []) 1) = false := by
  decide

/-- Witness for C8 (amended) at `A = {0 \ 0.5, 1 \ 0.25}` and
`B = {0 \ 0.75, 1 \ 0.0}` (equal key sets). -/
theorem claim_C8_algebraic_deMorgan_witness :
    fsEq (fsComplement (fsUnion [((0:ℕ), (1:ℚ)/2), (1, 1/4)]
        [((0:ℕ), (3:ℚ)/4), (1, 0)] 1))
      (fsIntersection (fsComplement [((0:ℕ), (1:ℚ)/2), (1, 1/4)])
        (fsComplement [((0:ℕ), (3:ℚ)/4), (1, 0)]) 1) = true :=
  claim_C8_algebraic_deMorgan _ _ (fun _ => Iff.rfl)

/-- C9: `IndexedSet.add` (the shared insert of `IndexedSet` and `FuzzySet`)
is first-insert-wins: adding an element whose key is already present leaves
the container unchanged (the existing membership degree survives, no
exception is raised — the embedding is a total function), and adding a
fresh key inserts an owned copy of the element. -/
theorem claim_C9_add_first_insert_wins {K : Type} [DecidableEq K]
    (A : FSet K) (e : K × ℚ) :
    (e.1 ∈ fsKeys A → fsAdd A e = A) ∧
    (e.1 ∉ fsKeys A → fsAdd A e = A ++ [e]) ∧
    (∀ k, fsMu (fsAdd A e) k =
      if k = e.1 ∧ k ∉ fsKeys A then e.2 else fsMu A k) := by
  refine ⟨fun h => if_pos h, fun h => if_neg h, fun k => ?_⟩
  rw [fsMu, fsLookup_fsAdd]
  by_cases hk : k = e.1
  · subst hk
    by_cases hm : e.1 ∈ fsKeys A
    · rcases Option.isSome_iff_exists.1 (fsLookup_isSome_iff.2 hm) with ⟨v, hv⟩
      rw [if_pos rfl, if_neg (fun hc => hc.2 hm), hv, fsMu, hv]
      rfl
    · rw [if_pos rfl, if_pos ⟨rfl, hm⟩, fsLookup_eq_none_of_not_mem hm]
      rfl
  · rw [if_neg hk, if_neg (fun hc => hk hc.1), fsMu]

/-- Witness for C9: adding `(1, 0.75)` to `{1 \ 0.5}` is a no-op that keeps
the stored membership `0.5`; adding the fresh key `2` appends a copy. -/
theorem claim_C9_add_first_insert_wins_witness :
    fsAdd [((1:ℕ), (1:ℚ)/2)] (1, 3/4) = [((1:ℕ), (1:ℚ)/2)] ∧
    fsMu (fsAdd [((1:ℕ), (1:ℚ)/2)] (1, 3/4)) 1 = 1/2 ∧
    fsAdd [((1:ℕ), (1:ℚ)/2)] (2, 3/4) =
      [((1:ℕ), (1:ℚ)/2), (2, 3/4)] :=
  ⟨(claim_C9_add_first_insert_wins [((1:ℕ), (1:ℚ)/2)] (1, 3/4)).1 (by decide),
   ((claim_C9_add_first_insert_wins [((1:ℕ), (1:ℚ)/2)] (1, 3/4)).2.2 1).trans
     (by decide),
   (claim_C9_add_first_insert_wins [((1:ℕ), (1:ℚ)/2)] (2, 3/4)).2.1
     (by decide)⟩

/-- C6: `FuzzyElement.__init__` performs no range check at all — constructing
an element with membership degree `2` (outside `[0,1]`) succeeds and stores
`mu = 2`, contradicting the specification (and the repository's own
test.py `test_fuzzy_element`, which expects `ValueError`). -/
theorem claim_C6_fuzzy_element_no_range_check :
    fuzzyElementInit (0:ℕ) (2:ℚ) = ((0:ℕ), (2:ℚ)) ∧
    (fuzzyElementInit (0:ℕ) (2:ℚ)).2 = 2 ∧ ¬ ((2:ℚ) ≤ 1) :=
  ⟨rfl, rfl, by norm_num⟩

/-- C1: the polygonal merge crashes on legitimate input.  Both triangles are
valid `PolygonalFuzzyNumber`s (the constructor accepts them), but because
their supports are disjoint every re-evaluated membership in
`A.intersection(B)` is zero, and the zero-trimming loop
`while points[1][0][1] == 0.0: del points[0]` empties the list down to one
element and then raises `IndexError` — no result polygon is produced, so the
claimed properties cannot hold. -/
theorem claim_C1_intersection_index_error :
    polygonalFuzzyNumberInit [(0, 0), (1, 1), (2, 0)] =
      Except.ok [(0, 0), (1, 1), (2, 0)] ∧
    polygonalFuzzyNumberInit [(5, 0), (6, 1), (7, 0)] =
      Except.ok [(5, 0), (6, 1), (7, 0)] ∧
    pfnIntersection [(0, 0), (1, 1), (2, 0)] [(5, 0), (6, 1), (7, 0)] =
      Except.error PyErr.indexError := by
  refine ⟨rfl, rfl, ?_⟩
  rfl

/-- C7: the round trip never happens, because
`PolygonalFuzzyNumber.to_fuzzy_set` calls `F.add(point, self.mu(point))`
with two positional arguments while `FuzzySet.add(self, element)` accepts
one, raising `TypeError` on the first sample point.  The polygon is the
`X` of test.py (`test_to_fuzzy_set` expects `{1.5: 0.25, 6.0: 0.8}`); its
`mu` itself is fine — `mu(1.5) = 0.25` — the failure is the call. -/
theorem claim_C7_to_fuzzy_set_type_error :
    pfnMu [(0, 0), (3, 1/2), (4, 3/10), (6, 4/5), (7, 1/5), (8, 3/10),
        (9, 1/5), (10, 7/10), (11, 0)] (3/2) = 1/4 ∧
    pfnToFuzzySet [(0, 0), (3, 1/2), (4, 3/10), (6, 4/5), (7, 1/5),
        (8, 3/10), (9, 1/5), (10, 7/10), (11, 0)] (some [3/2, 6]) =
      Except.error PyErr.typeError := by
  refine ⟨?_, rfl⟩
  rfl

/-- C10 (amended): a `PolygonalFuzzyNumber` of height 0 raises
`ZeroDivisionError` from `normalize()` (the claim is right there), but
`FuzzySet.normalize()` is not a no-op at zero height: its guard
`if self.height > 0` evaluates `height = max([element.mu for element in
self])` over the active-element iteration, which is empty for a zero-height
set, so Python's `max` raises `ValueError` before the guard can decide
anything. -/
theorem claim_C10_normalize_zero_height {K : Type} [DecidableEq K] :
    (∀ pts : List (ℚ × ℚ), pts ≠ [] → pfnHeight pts = 0 →
      pfnNormalize pts = Except.error PyErr.zeroDivisionError) ∧
    (∀ S : FSet K, (∀ e ∈ S, ¬ 0 < e.2) →
      fsNormalize S = Except.error PyErr.valueError) := by
  constructor
  · intro pts hne h0
    rw [pfnNormalize, if_neg hne, if_pos h0]
  · intro S h
    have hact : fsActive S = [] := by
      rw [fsActive, List.filter_eq_nil_iff]
      intro e he
      simpa using h e he
    simp [fsNormalize, fsHeight, hact]

/-- Counterexample to C10 as stated: the fuzzy set `{0 \ 0.0}` has zero
height, and `FuzzySet.normalize()` on it raises `ValueError` (from `max` of
an empty sequence) instead of being the claimed guarded no-op. -/
theorem claim_C10_normalize_zero_height_counterexample :
    fsNormalize [((0:ℕ), (0:ℚ))] = Except.error PyErr.valueError ∧
    Except.error PyErr.valueError ≠
      (Except.ok [((0:ℕ), (0:ℚ))] : Except PyErr (FSet ℕ)) := by
  refine ⟨rfl, ?_⟩
  intro h
  exact Except.noConfusion h

/-- Witness for C10 (amended): the degenerate polygon `[(0,0),(1,0)]` and
the fuzzy set `{0 \ 0.0}`. -/
theorem claim_C10_normalize_zero_height_witness :
    pfnNormalize [(0, 0), (1, 0)] = Except.error PyErr.zeroDivisionError ∧
    fsNormalize [((0:ℕ), (0:ℚ))] = Except.error PyErr.valueError :=
  ⟨(claim_C10_normalize_zero_height (K := ℕ)).1 [(0, 0), (1, 0)]
      (by decide) (by decide),
   (claim_C10_normalize_zero_height (K := ℕ)).2 [((0:ℕ), (0:ℚ))]
      (by decide)⟩

/-- C3: the diagonal case and the fuzzy-graph law hold, but crisp
`Graph.weight` breaks the "either orientation when undirected" part of the
claim: on the undirected graph with vertices `{0,1}` and the single stored
edge `(1,0)`, `weight(0,1)` is `+inf` — the membership test
`GraphEdge((tail, head)) in self.edges()` consults the raw stored edge set
and ignores the `directed` flag — even though `adjacent(0,1)` is `True`
(its `edges(tail, head)` query does honour undirectedness).  The
spec-modelled `FuzzyGraph.weight` (absent from the shipped fgraph.py)
reproduces every expectation of test.py's `test_weight`. -/
theorem claim_C3_weight :
    graphWeight ⟨false, [0, 1], [(1, 0)]⟩ 0 1 = W.inf ∧
    graphAdjacent ⟨false, [0, 1], [(1, 0)]⟩ 0 1 = true ∧
    graphWeight ⟨false, [0, 1], [(1, 0)]⟩ 1 0 = W.fin 1 ∧
    graphWeight ⟨false, [0, 1], [(1, 0)]⟩ 0 0 = W.fin 0 ∧
    graphWeight ⟨true, [0, 1], [(0, 1)]⟩ 0 1 = W.fin 1 ∧
    graphWeight ⟨true, [0, 1], [(0, 1)]⟩ 1 0 = W.inf ∧
    fuzzyGraphWeight ⟨false, [], testEdges⟩ 1 1 = W.fin 0 ∧
    fuzzyGraphWeight ⟨false, [], testEdges⟩ 2 3 = W.fin 1 ∧
    fuzzyGraphWeight ⟨false, [], testEdges⟩ 1 5 = W.inf ∧
    fuzzyGraphWeight ⟨true, [], testEdges⟩ 3 4 = W.fin (10/9) ∧
    fuzzyGraphWeight ⟨false, [], testEdges⟩ 4 3 = W.fin (10/9) ∧
    fuzzyGraphWeight ⟨true, [], testEdges⟩ 4 3 = W.inf := by
  decide

/-- C4 (amended): for every *connected* undirected graph without self-loop
edges on at most 4 vertices (exhaustively, all 64 graphs on `{0,1,2,3}`;
the specification itself says "verify via brute force on small graphs"),
`minimum_spanning_tree()` returns a graph with exactly `|V| - 1` edges
that is acyclic and of minimal total weight among all spanning trees; on a
directed graph it raises `TypeError`.  (As stated the claim is false: on a
disconnected graph the call also succeeds but returns a forest with fewer
than `|V| - 1` edges, and a self-loop — weight 0, never 'connected' to
itself — would be accepted into the tree.) -/
theorem claim_C4_minimum_spanning_tree :
    (∀ b1 b2 b3 b4 b5 b6 : Bool,
      isConnectedGraph (mkG4 b1 b2 b3 b4 b5 b6) = true →
      minimumSpanningTree (mkG4 b1 b2 b3 b4 b5 b6) =
          Except.ok (mstResult (mkG4 b1 b2 b3 b4 b5 b6)) ∧
      (mstResult (mkG4 b1 b2 b3 b4 b5 b6)).E.length =
          (mkG4 b1 b2 b3 b4 b5 b6).V.length - 1 ∧
      isAcyclicGraph (mstResult (mkG4 b1 b2 b3 b4 b5 b6)) = true ∧
      ((mkG4 b1 b2 b3 b4 b5 b6).E.sublists.all (fun S =>
        !(isSpanningTree (mkG4 b1 b2 b3 b4 b5 b6) S) ||
          wle (totalWeight (mkG4 b1 b2 b3 b4 b5 b6)
                (mstResult (mkG4 b1 b2 b3 b4 b5 b6)).E)
              (totalWeight (mkG4 b1 b2 b3 b4 b5 b6) S)) = true)) ∧
    (∀ G : PyGraph, G.directed = true →
      minimumSpanningTree G = Except.error PyErr.typeError) := by
  constructor
  · decide
  · intro G h
    rw [minimumSpanningTree, if_pos h]

/-- Counterexample to C4 as stated: the disconnected undirected graph with
vertices `{0, 1}` and no edges.  `minimum_spanning_tree()` succeeds and
returns the edgeless graph, which has `0` edges, not `|V| - 1 = 1`. -/
theorem claim_C4_minimum_spanning_tree_counterexample :
    minimumSpanningTree ⟨false, [0, 1], []⟩ =
      Except.ok ⟨false, [0, 1], []⟩ ∧
    (Except.ok (⟨false, [0, 1], []⟩ : PyGraph) :
        Except PyErr PyGraph) ≠ Except.error PyErr.typeError ∧
    ([] : List (ℕ × ℕ)).length ≠ ([0, 1] : List ℕ).length - 1 := by
  refine ⟨rfl, ?_, by decide⟩
  intro h
  exact Except.noConfusion h

/-- Witness for C4 (amended) at the path graph `0-1-2-3` and at a concrete
directed graph. -/
theorem claim_C4_minimum_spanning_tree_witness :
    (minimumSpanningTree (mkG4 true false false true false true) =
        Except.ok (mstResult (mkG4 true false false true false true)) ∧
      (mstResult (mkG4 true false false true false true)).E.length =
        (mkG4 true false false true false true).V.length - 1 ∧
      isAcyclicGraph (mstResult (mkG4 true false false true false true)) =
        true ∧
      ((mkG4 true false false true false true).E.sublists.all (fun S =>
        !(isSpanningTree (mkG4 true false false true false true) S) ||
          wle (totalWeight (mkG4 true false false true false true)
                (mstResult (mkG4 true false false true false true)).E)
              (totalWeight (mkG4 true false false true false true) S)) =
        true)) ∧
    minimumSpanningTree ⟨true, [0, 1], [(0, 1)]⟩ =
      Except.error PyErr.typeError :=
  ⟨claim_C4_minimum_spanning_tree.1 true false false true false true
      (by decide),
   claim_C4_minimum_spanning_tree.2 ⟨true, [0, 1], [(0, 1)]⟩ rfl⟩
